import Mathlib

/-!
Shallow embedding of `rx/concurrency/mainloopscheduler/pygamescheduler.py`
(the `PyGameScheduler` class) and verification of its specification.

Times are modelled as integers (`datetime` values ordered by comparison),
actions as opaque identifiers together with a behaviour function, and the
scheduler's lock is not modelled (the drain loop is sequential; the spec's
lock discipline only matters for interleaving, which the claims below state
in terms of the cancellation flag observed at invocation time).
-/

namespace PyGame

/-- Modelled from the spec: a Scheduled Entry (`ScheduledItem` in
`rx.concurrency`, which is not part of the sources): an absolute due time,
a monotonically increasing sequence number assigned at insertion, and the
opaque action (identified by `aid`; the caller-supplied state is folded
into the action identity, since the scheduler never inspects it).  The
`cancelled` flag lives outside the entry: it is shared with the handle and
read at invocation time, so it is modelled as a function of the sequence
number (see `runEff`). -/
structure ScheduledItem where
  duetime : Int
  seq : Nat
  aid : Nat
  deriving DecidableEq, Repr

/-- Modelled from the spec: the Priority Queue order — primary key
`due_time` ascending, secondary key `sequence_number` ascending. -/
def keyLE (a b : ScheduledItem) : Prop :=
  a.duetime < b.duetime ∨ (a.duetime = b.duetime ∧ a.seq ≤ b.seq)

instance (a b : ScheduledItem) : Decidable (keyLE a b) := by
  unfold keyLE; exact inferInstance

/-- Modelled from the spec: `PriorityQueue.enqueue` (from `rx.internal`,
not part of the sources).  The queue is represented as the list sorted by
`keyLE`; insertion places the new entry after every entry whose key is not
larger, so `peek`/`dequeue` are the head/tail of the list, which realises
the contract "peek returns the smallest `(due_time, sequence_number)`
entry, dequeue removes that same entry". -/
def enqueue (e : ScheduledItem) : List ScheduledItem → List ScheduledItem
  | [] => [e]
  | f :: r => if keyLE f e then f :: enqueue e r else e :: f :: r

/-- Scheduler state outside of a drain: the queue and the next sequence
number to assign. -/
structure SchedulerState where
  queue : List ScheduledItem
  nextSeq : Nat
  deriving DecidableEq, Repr

/-- `PyGameScheduler.schedule_absolute`: wrap the action into a
`ScheduledItem` with the next sequence number and insert it under the
lock; the returned `Nat` is the sequence number, standing for the
cancellation handle bound to the entry. -/
def schedule_absolute (duetime : Int) (aid : Nat) (st : SchedulerState) :
    SchedulerState × Nat :=
  (⟨enqueue ⟨duetime, st.nextSeq, aid⟩ st.queue, st.nextSeq + 1⟩, st.nextSeq)

/-- Modelled from the spec: `SchedulerBase.normalize` (not part of the
sources) clamps a negative delay to zero. -/
def normalize (delay : Int) : Int := max delay 0

/-- `PyGameScheduler.schedule_relative`: due time is `now + normalize delay`.
`now` is passed explicitly (`nowT`), standing for the fresh clock read
`self.now` performed by the method. -/
def schedule_relative (nowT delay : Int) (aid : Nat) (st : SchedulerState) :
    SchedulerState × Nat :=
  schedule_absolute (nowT + normalize delay) aid st

/-- `PyGameScheduler.schedule`: schedule at the current time `self.now`
(passed explicitly as `nowT`). -/
def schedule (nowT : Int) (aid : Nat) (st : SchedulerState) :
    SchedulerState × Nat :=
  schedule_absolute nowT aid st

/-- What an action does when invoked: nothing observable, raise an
exception, or call `schedule` on the scheduler again with the action
identified by `aid` (the spec's self-rescheduling, `schedule(self)`,
uses the invoked action's own identifier). -/
inductive ActEff where
  | pure
  | raiseExn
  | resched (aid : Nat)
  deriving DecidableEq, Repr

/-- How one `run` call ends: normally (queue empty or earliest entry not
yet due), by an exception propagating out of an invoked action, or not at
all within the given fuel. -/
inductive Outcome where
  | finished
  | raised
  | fuelOut
  deriving DecidableEq, Repr

/-- State during a `run` call: the queue, the next sequence number, and
the trace of invoked entries in invocation order. -/
structure RState where
  queue : List ScheduledItem
  nextSeq : Nat
  trace : List ScheduledItem
  deriving DecidableEq, Repr

/-- `PyGameScheduler.run`, fuel-indexed.  Each loop iteration `k`:
if the queue is empty the loop exits; otherwise peek the earliest item,
read `self.now` (a fresh read per iteration, modelled by `clock k`), and
if `item.duetime - now > DELTA_ZERO` break; otherwise dequeue, and outside
the lock invoke the item unless `is_cancelled()` — the cancellation flag
read at that moment, modelled by `canc` on the sequence number.  An
invoked action's behaviour is `beh` of its identifier: `raiseExn`
propagates (the loop has no handler), `resched a` re-enters the scheduler
with `schedule` at the current time. -/
def runEff (beh : Nat → ActEff) (canc : Nat → Bool) (clock : Nat → Int) :
    Nat → Nat → RState → RState × Outcome
  | 0, _, s => (s, Outcome.fuelOut)
  | _ + 1, _, ⟨[], ns, tr⟩ => (⟨[], ns, tr⟩, Outcome.finished)
  | f + 1, k, ⟨e :: q, ns, tr⟩ =>
    if e.duetime > clock k then (⟨e :: q, ns, tr⟩, Outcome.finished)
    else if canc e.seq then runEff beh canc clock f (k + 1) ⟨q, ns, tr⟩
    else
      match beh e.aid with
      | ActEff.pure => runEff beh canc clock f (k + 1) ⟨q, ns, tr ++ [e]⟩
      | ActEff.raiseExn => (⟨q, ns, tr ++ [e]⟩, Outcome.raised)
      | ActEff.resched a =>
          runEff beh canc clock f (k + 1)
            ⟨enqueue ⟨clock k, ns, a⟩ q, ns + 1, tr ++ [e]⟩

/-- Behaviour of actions that only record their invocation. -/
def pureBeh : Nat → ActEff := fun _ => ActEff.pure

/-- No handle has been cancelled. -/
def noCanc : Nat → Bool := fun _ => false

/-- A clock frozen at virtual time `T` for a whole drain pass. -/
def constClock (T : Int) : Nat → Int := fun _ => T

/-- The entries produced by a list of `schedule_absolute (t, aid)` requests
starting at sequence number `n`. -/
def entriesFrom (n : Nat) : List (Int × Nat) → List ScheduledItem
  | [] => []
  | (t, a) :: r => ⟨t, n, a⟩ :: entriesFrom (n + 1) r

/-- Perform a list of `schedule_absolute` requests in order. -/
def scheduleAllFrom (st : SchedulerState) : List (Int × Nat) → SchedulerState
  | [] => st
  | (t, a) :: r => scheduleAllFrom (schedule_absolute t a st).1 r

/-- Perform a list of `schedule_absolute` requests on a fresh scheduler. -/
def scheduleAll (reqs : List (Int × Nat)) : SchedulerState :=
  scheduleAllFrom ⟨[], 0⟩ reqs

/-- One `run` call at frozen virtual time `T` with actions that only
record their invocation; fuel one more than the queue length, which
suffices (each iteration removes an entry or exits). -/
def drain (canc : Nat → Bool) (T : Int) (st : SchedulerState) :
    RState × Outcome :=
  runEff pureBeh canc (constClock T) (st.queue.length + 1) 0
    ⟨st.queue, st.nextSeq, []⟩

/-- An entry is due at virtual time `T` when its due time has arrived
(`duetime ≤ T`; the loop breaks only on `duetime - now > DELTA_ZERO`). -/
def isDue (T : Int) (e : ScheduledItem) : Bool := decide (e.duetime ≤ T)

/-- Behaviour of an action that reschedules itself when invoked
(`schedule(self)` from inside the action). -/
def selfBeh : Nat → ActEff := fun a => ActEff.resched a

/-- The invocation trace of the self-rescheduling action after `n` loop
iterations, when its reinsertions receive sequence numbers `m`,
`m + 1`, …: every iteration invokes the (immediately due) entry. -/
def selfTrace (m : Nat) : Nat → List ScheduledItem
  | 0 => []
  | n + 1 => ⟨0, m, 0⟩ :: selfTrace (m + 1) n

example :
    (drain noCanc 100 (scheduleAll [(100, 0), (50, 1), (100, 2)])).1.trace.map
      ScheduledItem.aid = [1, 0, 2] := by decide

example :
    (drain noCanc 99 (scheduleAll [(100, 0), (50, 1), (100, 2)])).1.trace.map
      ScheduledItem.aid = [1] := by decide

/-! Order lemmas for the queue key. -/

theorem keyLE_total (a b : ScheduledItem) : keyLE a b ∨ keyLE b a := by
  unfold keyLE; omega

theorem keyLE_trans {a b c : ScheduledItem} (h1 : keyLE a b) (h2 : keyLE b c) :
    keyLE a c := by
  unfold keyLE at *; omega

/-! Lemmas about `enqueue`. -/

theorem mem_enqueue {x e : ScheduledItem} :
    ∀ {q : List ScheduledItem}, x ∈ enqueue e q ↔ x = e ∨ x ∈ q
  | [] => by simp [enqueue]
  | f :: r => by
    by_cases hfe : keyLE f e
    · simp only [enqueue, if_pos hfe, List.mem_cons, mem_enqueue (q := r)]
      tauto
    · simp only [enqueue, if_neg hfe, List.mem_cons]

theorem enqueue_perm (e : ScheduledItem) :
    ∀ q : List ScheduledItem, (enqueue e q).Perm (e :: q)
  | [] => List.Perm.refl _
  | f :: r => by
    by_cases hfe : keyLE f e
    · simp only [enqueue, if_pos hfe]
      exact (List.Perm.cons f (enqueue_perm e r)).trans (List.Perm.swap e f r)
    · simp only [enqueue, if_neg hfe]
      exact List.Perm.refl _

theorem enqueue_pairwise (e : ScheduledItem) :
    ∀ q : List ScheduledItem, q.Pairwise keyLE → (enqueue e q).Pairwise keyLE
  | [], _ => by simp [enqueue]
  | f :: r, h => by
    rw [List.pairwise_cons] at h
    by_cases hfe : keyLE f e
    · simp only [enqueue, if_pos hfe, List.pairwise_cons]
      refine ⟨fun x hx => ?_, enqueue_pairwise e r h.2⟩
      rcases mem_enqueue.1 hx with rfl | hxr
      · exact hfe
      · exact h.1 x hxr
    · have hef : keyLE e f := (keyLE_total e f).resolve_right hfe
      simp only [enqueue, if_neg hfe, List.pairwise_cons]
      refine ⟨fun x hx => ?_, h.1, h.2⟩
      rcases List.mem_cons.1 hx with rfl | hxr
      · exact hef
      · exact keyLE_trans hef (h.1 x hxr)

/-- When the new entry's key is at least every key in the queue, `enqueue`
appends it at the end (the FIFO position among equal due times). -/
theorem enqueue_eq_append (e : ScheduledItem) :
    ∀ q : List ScheduledItem, (∀ f ∈ q, keyLE f e) → enqueue e q = q ++ [e]
  | [], _ => rfl
  | f :: r, h => by
    have hfe : keyLE f e := h f (List.mem_cons_self f r)
    simp only [enqueue, if_pos hfe, List.cons_append, List.cons.injEq, true_and]
    exact enqueue_eq_append e r fun x hx => h x (List.mem_cons_of_mem f hx)

/-! Lemmas about `scheduleAllFrom`. -/

theorem scheduleAllFrom_nextSeq :
    ∀ (reqs : List (Int × Nat)) (st : SchedulerState),
      (scheduleAllFrom st reqs).nextSeq = st.nextSeq + reqs.length
  | [], _ => rfl
  | (t, a) :: r, st => by
    simp only [scheduleAllFrom, scheduleAllFrom_nextSeq r, schedule_absolute,
      List.length_cons]
    omega

theorem scheduleAllFrom_queue_perm :
    ∀ (reqs : List (Int × Nat)) (st : SchedulerState),
      ((scheduleAllFrom st reqs).queue).Perm
        (st.queue ++ entriesFrom st.nextSeq reqs)
  | [], st => by simp [scheduleAllFrom, entriesFrom]
  | (t, a) :: r, st => by
    simp only [scheduleAllFrom, entriesFrom]
    refine (scheduleAllFrom_queue_perm r _).trans ?_
    simp only [schedule_absolute]
    refine (List.Perm.append_right _ ((enqueue_perm _ st.queue))).trans ?_
    simp only [List.cons_append]
    exact (List.perm_middle).symm

theorem scheduleAllFrom_pairwise :
    ∀ (reqs : List (Int × Nat)) (st : SchedulerState),
      st.queue.Pairwise keyLE → ((scheduleAllFrom st reqs).queue).Pairwise keyLE
  | [], _, h => h
  | (_t, _a) :: r, st, h =>
    scheduleAllFrom_pairwise r _ (enqueue_pairwise _ st.queue h)

/-! Lemmas about `runEff`. -/

/-- With pure actions and the clock frozen at `T`, one `run` call with fuel
`|queue| + 1` finishes, leaving in the queue the entries from the first
not-yet-due one on, and appending to the trace the due prefix minus the
cancelled entries. -/
theorem runEff_pure_eq (canc : Nat → Bool) (T : Int) :
    ∀ (q : List ScheduledItem) (k ns : Nat) (tr : List ScheduledItem),
      runEff pureBeh canc (constClock T) (q.length + 1) k ⟨q, ns, tr⟩ =
        (⟨q.dropWhile (isDue T), ns,
          tr ++ (q.takeWhile (isDue T)).filter (fun e => !canc e.seq)⟩,
         Outcome.finished)
  | [], k, ns, tr => by simp [runEff, List.dropWhile, List.takeWhile]
  | e :: q, k, ns, tr => by
    by_cases hdue : e.duetime > T
    · have hd : isDue T e = false := by simp [isDue]; omega
      simp [runEff, constClock, hdue, List.dropWhile_cons, List.takeWhile_cons,
        hd]
    · have hd : isDue T e = true := by simp [isDue]; omega
      by_cases hc : canc e.seq
      · simp only [List.length_cons, runEff, constClock, if_neg hdue,
          if_pos hc, runEff_pure_eq canc T q (k + 1) ns tr,
          List.dropWhile_cons, List.takeWhile_cons, hd, if_pos rfl,
          List.filter_cons, hc]
        simp [List.filter_cons, hc]
      · simp only [List.length_cons, runEff, constClock, if_neg hdue,
          if_neg hc, pureBeh, runEff_pure_eq canc T q (k + 1) ns (tr ++ [e]),
          List.dropWhile_cons, List.takeWhile_cons, hd, if_pos rfl,
          List.filter_cons]
        have hc' : (!canc e.seq) = true := by simp [hc]
        simp [hc', List.append_assoc]

/-- In a queue sorted by `(due_time, sequence_number)`, the due entries
form a prefix: taking while due is the same as filtering the due ones. -/
theorem takeWhile_due_eq_filter (T : Int) :
    ∀ q : List ScheduledItem, q.Pairwise keyLE →
      q.takeWhile (isDue T) = q.filter (isDue T)
  | [], _ => rfl
  | e :: q, h => by
    rw [List.pairwise_cons] at h
    by_cases hd : isDue T e = true
    · simp [List.takeWhile_cons, List.filter_cons, hd,
        takeWhile_due_eq_filter T q h.2]
    · have hnil : q.filter (isDue T) = [] := by
        refine List.filter_eq_nil_iff.2 fun x hx => ?_
        have hk := h.1 x hx
        simp only [isDue, decide_eq_true_eq] at hd ⊢
        unfold keyLE at hk
        omega
      simp [List.takeWhile_cons, List.filter_cons, hd, hnil]

/-- In a sorted queue, dropping the due prefix is the same as filtering
for the not-yet-due entries. -/
theorem dropWhile_due_eq_filter (T : Int) :
    ∀ q : List ScheduledItem, q.Pairwise keyLE →
      q.dropWhile (isDue T) = q.filter (fun e => !isDue T e)
  | [], _ => rfl
  | e :: q, h => by
    rw [List.pairwise_cons] at h
    by_cases hd : isDue T e = true
    · simp [List.dropWhile_cons, List.filter_cons, hd,
        dropWhile_due_eq_filter T q h.2]
    · have hself : q.filter (fun e => !isDue T e) = q := by
        refine List.filter_eq_self.2 fun x hx => ?_
        have hk := h.1 x hx
        simp only [isDue, decide_eq_true_eq] at hd
        simp only [isDue, Bool.not_eq_true', decide_eq_false_iff_not]
        unfold keyLE at hk
        omega
      simp [List.dropWhile_cons, List.filter_cons, hd, hself]

/-- The trace only grows during a `run` call: whatever was recorded as
invoked stays recorded. -/
theorem runEff_trace_extends (beh : Nat → ActEff) (canc : Nat → Bool)
    (clock : Nat → Int) :
    ∀ (f k : Nat) (s : RState),
      ∃ u, (runEff beh canc clock f k s).1.trace = s.trace ++ u
  | 0, _, s => ⟨[], by simp [runEff]⟩
  | f + 1, k, ⟨[], ns, tr⟩ => ⟨[], by simp [runEff]⟩
  | f + 1, k, ⟨e :: q, ns, tr⟩ => by
    by_cases hdue : e.duetime > clock k
    · exact ⟨[], by simp [runEff, hdue]⟩
    · by_cases hc : canc e.seq
      · obtain ⟨u, hu⟩ := runEff_trace_extends beh canc clock f (k + 1) ⟨q, ns, tr⟩
        exact ⟨u, by simpa [runEff, hdue, hc] using hu⟩
      · cases hbeh : beh e.aid with
        | pure =>
          obtain ⟨u, hu⟩ :=
            runEff_trace_extends beh canc clock f (k + 1) ⟨q, ns, tr ++ [e]⟩
          refine ⟨[e] ++ u, ?_⟩
          simp only [runEff, if_neg hdue, if_neg hc, hbeh]
          simpa [List.append_assoc] using hu
        | raiseExn =>
          refine ⟨[e], ?_⟩
          simp [runEff, hdue, hc, hbeh]
        | resched a =>
          obtain ⟨u, hu⟩ := runEff_trace_extends beh canc clock f (k + 1)
            ⟨enqueue ⟨clock k, ns, a⟩ q, ns + 1, tr ++ [e]⟩
          refine ⟨[e] ++ u, ?_⟩
          simp only [runEff, if_neg hdue, if_neg hc, hbeh]
          simpa [List.append_assoc] using hu

/-- No entry whose cancellation flag reads true is ever added to the
trace: `run` checks `is_cancelled()` right before invoking. -/
theorem runEff_trace_not_cancelled (beh : Nat → ActEff) (canc : Nat → Bool)
    (clock : Nat → Int) :
    ∀ (f k : Nat) (s : RState),
      (∀ x ∈ s.trace, canc x.seq = false) →
      ∀ x ∈ (runEff beh canc clock f k s).1.trace, canc x.seq = false
  | 0, _, s, h => by simpa [runEff] using h
  | f + 1, k, ⟨[], ns, tr⟩, h => by simpa [runEff] using h
  | f + 1, k, ⟨e :: q, ns, tr⟩, h => by
    by_cases hdue : e.duetime > clock k
    · simpa [runEff, hdue] using h
    · by_cases hc : canc e.seq
      · intro x hx
        refine runEff_trace_not_cancelled beh canc clock f (k + 1) ⟨q, ns, tr⟩ h x ?_
        simpa [runEff, hdue, hc] using hx
      · have hce : canc e.seq = false := by simpa using hc
        have h' : ∀ x ∈ tr ++ [e], canc x.seq = false := by
          intro x hx
          rcases List.mem_append.1 hx with hx | hx
          · exact h x hx
          · rcases List.mem_singleton.1 hx with rfl
            exact hce
        cases hbeh : beh e.aid with
        | pure =>
          intro x hx
          refine runEff_trace_not_cancelled beh canc clock f (k + 1)
            ⟨q, ns, tr ++ [e]⟩ h' x ?_
          simpa [runEff, hdue, hc, hbeh] using hx
        | raiseExn =>
          intro x hx
          have hx' : x ∈ tr ++ [e] := by simpa [runEff, hdue, hc, hbeh] using hx
          exact h' x hx'
        | resched a =>
          intro x hx
          refine runEff_trace_not_cancelled beh canc clock f (k + 1)
            ⟨enqueue ⟨clock k, ns, a⟩ q, ns + 1, tr ++ [e]⟩ h' x ?_
          simpa [runEff, hdue, hc, hbeh] using hx

/-! Further helper lemmas for the same-due-time (FIFO) and
self-rescheduling scenarios. -/

/-- `scheduleAllFrom` over requests that all share the same due time `t`
appends each new entry at the end of the queue, provided every entry
already present has due time `t` and a smaller sequence number. -/
theorem scheduleAllFrom_const_t (t : Int) :
    ∀ (l : List Nat) (q0 : List ScheduledItem) (n0 : Nat),
      (∀ f ∈ q0, f.duetime = t ∧ f.seq < n0) →
      (scheduleAllFrom ⟨q0, n0⟩ (l.map fun a => (t, a))).queue =
        q0 ++ entriesFrom n0 (l.map fun a => (t, a))
  | [], q0, n0, _ => by simp [scheduleAllFrom, entriesFrom]
  | a :: l, q0, n0, h => by
    have happ : enqueue ⟨t, n0, a⟩ q0 = q0 ++ [⟨t, n0, a⟩] := by
      refine enqueue_eq_append _ q0 fun f hf => ?_
      have := h f hf
      unfold keyLE
      dsimp only
      omega
    have h' : ∀ f ∈ q0 ++ [⟨t, n0, a⟩], f.duetime = t ∧ f.seq < n0 + 1 := by
      intro f hf
      rcases List.mem_append.1 hf with hf | hf
      · have := h f hf; omega
      · rcases List.mem_singleton.1 hf with rfl
        exact ⟨rfl, Nat.lt_succ_self n0⟩
    simp only [List.map_cons, scheduleAllFrom, schedule_absolute, happ,
      scheduleAllFrom_const_t t l (q0 ++ [⟨t, n0, a⟩]) (n0 + 1) h',
      entriesFrom, List.append_assoc, List.singleton_append]

/-- All entries produced from same-due-time requests carry that due
time. -/
theorem entriesFrom_const_t_duetime (t : Int) :
    ∀ (l : List Nat) (n0 : Nat),
      ∀ x ∈ entriesFrom n0 (l.map fun a => (t, a)), x.duetime = t
  | [], _, x, hx => by simp [entriesFrom] at hx
  | a :: l, n0, x, hx => by
    simp only [List.map_cons, entriesFrom, List.mem_cons] at hx
    rcases hx with rfl | hx
    · rfl
    · exact entriesFrom_const_t_duetime t l (n0 + 1) x hx

/-- The action identifiers of the produced entries are the requested
ones, in order. -/
theorem entriesFrom_map_aid (t : Int) :
    ∀ (l : List Nat) (n0 : Nat),
      (entriesFrom n0 (l.map fun a => (t, a))).map ScheduledItem.aid = l
  | [], _ => rfl
  | a :: l, n0 => by
    simp only [List.map_cons, entriesFrom, entriesFrom_map_aid t l (n0 + 1)]

/-- `takeWhile` keeps the whole list when the predicate holds
everywhere. -/
theorem takeWhile_all {α : Type} {p : α → Bool} :
    ∀ l : List α, (∀ x ∈ l, p x = true) → l.takeWhile p = l
  | [], _ => rfl
  | a :: l, h => by
    have ha : p a = true := h a (List.mem_cons_self a l)
    simp [List.takeWhile_cons, ha,
      takeWhile_all l fun x hx => h x (List.mem_cons_of_mem a hx)]

/-- One `run` call on a queue holding only the self-rescheduling action,
with the clock frozen at its due time, spends all its fuel: each
iteration dequeues the entry, invokes it, and re-enqueues it as
immediately due, so the loop never exits. -/
theorem runEff_selfBeh :
    ∀ (n k m : Nat) (tr : List ScheduledItem),
      runEff selfBeh noCanc (constClock 0) n k ⟨[⟨0, m, 0⟩], m + 1, tr⟩ =
        (⟨[⟨0, m + n, 0⟩], m + n + 1, tr ++ selfTrace m n⟩, Outcome.fuelOut)
  | 0, k, m, tr => by simp [runEff, selfTrace]
  | n + 1, k, m, tr => by
    have hstep :
        runEff selfBeh noCanc (constClock 0) (n + 1) k ⟨[⟨0, m, 0⟩], m + 1, tr⟩ =
          runEff selfBeh noCanc (constClock 0) n (k + 1)
            ⟨[⟨0, m + 1, 0⟩], m + 1 + 1, tr ++ [⟨0, m, 0⟩]⟩ := by
      simp [runEff, selfBeh, noCanc, constClock, enqueue]
    rw [hstep, runEff_selfBeh n (k + 1) (m + 1) (tr ++ [(⟨0, m, 0⟩ : ScheduledItem)])]
    have h1 : m + 1 + n = m + (n + 1) := by omega
    simp [selfTrace, h1, List.append_assoc]

/-! The claims. -/

/-- Claim C1: for every sequence of `schedule_absolute` calls followed by a
single `run` at virtual time `T`, the run finishes, the invoked entries are
exactly (as a multiset) the scheduled entries whose due time is at most `T`
and whose cancellation flag is false at invocation time, and they are
invoked in ascending `(due_time, sequence_number)` order. -/
theorem run_invokes_exactly_due_noncancelled_in_order
    (reqs : List (Int × Nat)) (canc : Nat → Bool) (T : Int) :
    (drain canc T (scheduleAll reqs)).2 = Outcome.finished ∧
    ((drain canc T (scheduleAll reqs)).1.trace).Perm
      ((entriesFrom 0 reqs).filter fun e => isDue T e && !canc e.seq) ∧
    ((drain canc T (scheduleAll reqs)).1.trace).Pairwise keyLE := by
  have hpw : ((scheduleAll reqs).queue).Pairwise keyLE :=
    scheduleAllFrom_pairwise reqs ⟨[], 0⟩ (by simp)
  have hperm : ((scheduleAll reqs).queue).Perm (entriesFrom 0 reqs) := by
    simpa using scheduleAllFrom_queue_perm reqs ⟨[], 0⟩
  have hdrain : drain canc T (scheduleAll reqs) =
      (⟨((scheduleAll reqs).queue).dropWhile (isDue T),
        (scheduleAll reqs).nextSeq,
        (((scheduleAll reqs).queue).takeWhile (isDue T)).filter
          fun e => !canc e.seq⟩, Outcome.finished) := by
    unfold drain
    rw [runEff_pure_eq]
    simp
  rw [hdrain]
  refine ⟨rfl, ?_, ?_⟩
  · dsimp only
    rw [takeWhile_due_eq_filter T _ hpw, List.filter_filter]
    have hcomm : (fun a => (!canc a.seq) && isDue T a) =
        fun a : ScheduledItem => isDue T a && !canc a.seq := by
      funext a
      exact Bool.and_comm _ _
    rw [hcomm]
    exact hperm.filter _
  · dsimp only
    rw [takeWhile_due_eq_filter T _ hpw]
    exact (hpw.sublist (List.filter_sublist _)).sublist (List.filter_sublist _)

/-- Claim C2: entries scheduled for the identical due time are invoked in
FIFO order — scheduling actions `0, …, n-1` all at time `t` and draining at
`T ≥ t` invokes them as `0, …, n-1`; in particular, scheduling A at 100,
B at 50, C at 100 and draining at 100 invokes B, A, C. -/
theorem same_duetime_invoked_fifo (n : Nat) (t T : Int) (ht : t ≤ T) :
    ((drain noCanc T (scheduleAll ((List.range n).map fun i => (t, i)))).1.trace.map
        ScheduledItem.aid = List.range n) ∧
    ((drain noCanc 100 (scheduleAll [(100, 0), (50, 1), (100, 2)])).1.trace.map
        ScheduledItem.aid = [1, 0, 2]) := by
  refine ⟨?_, by decide⟩
  have hq : (scheduleAll ((List.range n).map fun i => (t, i))).queue =
      entriesFrom 0 ((List.range n).map fun i => (t, i)) := by
    simpa using scheduleAllFrom_const_t t (List.range n) [] 0 (by simp)
  unfold drain
  rw [runEff_pure_eq]
  dsimp only
  rw [hq]
  have hall : ∀ x ∈ entriesFrom 0 ((List.range n).map fun i => (t, i)),
      isDue T x = true := by
    intro x hx
    have hx' := entriesFrom_const_t_duetime t (List.range n) 0 x hx
    simp only [isDue, decide_eq_true_eq, hx']
    omega
  rw [takeWhile_all _ hall]
  have hfil : (entriesFrom 0 ((List.range n).map fun i => (t, i))).filter
      (fun e => !noCanc e.seq) =
      entriesFrom 0 ((List.range n).map fun i => (t, i)) := by
    simp [noCanc]
  rw [hfil]
  simpa using entriesFrom_map_aid t (List.range n) 0

theorem same_duetime_invoked_fifo_witness :
    ((drain noCanc 7 (scheduleAll ((List.range 3).map fun i => ((5 : Int), i)))).1.trace.map
        ScheduledItem.aid = List.range 3) ∧
    ((drain noCanc 100 (scheduleAll [(100, 0), (50, 1), (100, 2)])).1.trace.map
        ScheduledItem.aid = [1, 0, 2]) :=
  same_duetime_invoked_fifo 3 5 7 (by decide)

/-- Claim C3: a handle whose cancellation flag reads true at the
invocation-time check (in particular, one cancelled any time before the
drain) is never invoked: no entry carrying that sequence number appears in
the trace of a `run` call. -/
theorem cancelled_handle_never_invoked (beh : Nat → ActEff)
    (canc : Nat → Bool) (clock : Nat → Int) (f k : Nat)
    (q : List ScheduledItem) (ns nh : Nat) (hc : canc nh = true) :
    ∀ e ∈ (runEff beh canc clock f k ⟨q, ns, []⟩).1.trace, e.seq ≠ nh := by
  intro e he hn
  have hfalse := runEff_trace_not_cancelled beh canc clock f k ⟨q, ns, []⟩
    (by simp) e he
  rw [hn, hc] at hfalse
  simp at hfalse

theorem cancelled_handle_never_invoked_witness :
    (⟨0, 0, 1⟩ : ScheduledItem).seq ≠ 5 :=
  cancelled_handle_never_invoked pureBeh (fun m => decide (m = 5))
    (constClock 0) 3 0 [⟨0, 0, 1⟩, ⟨0, 5, 2⟩] 6 5 (by decide)
    ⟨0, 0, 1⟩ (by decide)

/-- Claim C4: `run` returns as soon as the earliest remaining entry's due
time is strictly greater than `now()` — without invoking it and leaving the
queue untouched — while an entry whose due time equals `now()` exactly
counts as due and is invoked. -/
theorem run_stops_at_first_future_entry (beh : Nat → ActEff)
    (canc : Nat → Bool) (clock : Nat → Int) (f k : Nat) (e : ScheduledItem)
    (q : List ScheduledItem) (ns : Nat) (tr : List ScheduledItem) :
    (e.duetime > clock k →
      runEff beh canc clock (f + 1) k ⟨e :: q, ns, tr⟩ =
        (⟨e :: q, ns, tr⟩, Outcome.finished)) ∧
    (e.duetime = clock k → canc e.seq = false →
      e ∈ (runEff beh canc clock (f + 1) k ⟨e :: q, ns, tr⟩).1.trace) := by
  constructor
  · intro h
    simp [runEff, h]
  · intro heq hc
    have hdue : ¬ e.duetime > clock k := by omega
    have hc' : ¬ canc e.seq = true := by simp [hc]
    cases hbeh : beh e.aid with
    | pure =>
      obtain ⟨u, hu⟩ :=
        runEff_trace_extends beh canc clock f (k + 1) ⟨q, ns, tr ++ [e]⟩
      simp only [runEff, if_neg hdue, if_neg hc', hbeh]
      rw [hu]
      simp
    | raiseExn =>
      simp [runEff, if_neg hdue, if_neg hc', hbeh]
    | resched a =>
      obtain ⟨u, hu⟩ := runEff_trace_extends beh canc clock f (k + 1)
        ⟨enqueue ⟨clock k, ns, a⟩ q, ns + 1, tr ++ [e]⟩
      simp only [runEff, if_neg hdue, if_neg hc', hbeh]
      rw [hu]
      simp

theorem run_stops_at_first_future_entry_witness :
    (runEff pureBeh noCanc (constClock 5) 1 0 ⟨[⟨6, 0, 0⟩], 1, []⟩ =
      (⟨[⟨6, 0, 0⟩], 1, []⟩, Outcome.finished)) ∧
    (⟨5, 1, 1⟩ : ScheduledItem) ∈
      (runEff pureBeh noCanc (constClock 5) 1 0 ⟨[⟨5, 1, 1⟩], 2, []⟩).1.trace :=
  ⟨(run_stops_at_first_future_entry pureBeh noCanc (constClock 5) 0 0
      ⟨6, 0, 0⟩ [] 1 []).1 (by decide),
   (run_stops_at_first_future_entry pureBeh noCanc (constClock 5) 0 0
      ⟨5, 1, 1⟩ [] 2 []).2 (by decide) (by decide)⟩

/-- Claim C5: `schedule_relative` computes the due time as
`now + normalize delay`, where `normalize` clamps negative delays to zero;
hence for a negative delay it coincides with `schedule` (immediately
due). -/
theorem schedule_relative_clamps_negative_delay (nowT delay : Int)
    (aid : Nat) (st : SchedulerState) :
    schedule_relative nowT delay aid st =
      schedule_absolute (nowT + normalize delay) aid st ∧
    (delay < 0 → schedule_relative nowT delay aid st = schedule nowT aid st) := by
  refine ⟨rfl, fun hneg => ?_⟩
  have h0 : normalize delay = 0 := by
    unfold normalize
    omega
  simp [schedule_relative, schedule, h0]

theorem schedule_relative_clamps_negative_delay_witness :
    (schedule_relative 10 (-3) 0 ⟨[], 0⟩ =
      schedule_absolute (10 + normalize (-3)) 0 ⟨[], 0⟩) ∧
    schedule_relative 10 (-3) 0 ⟨[], 0⟩ = schedule 10 0 ⟨[], 0⟩ :=
  ⟨(schedule_relative_clamps_negative_delay 10 (-3) 0 ⟨[], 0⟩).1,
   (schedule_relative_clamps_negative_delay 10 (-3) 0 ⟨[], 0⟩).2 (by decide)⟩

/-- Claim C6: when a due, non-cancelled entry's action raises, the
exception propagates out of `run` (outcome `raised`): the entry was
dequeued and is not re-queued, the entries invoked earlier in the pass
stay in the trace, no later entry of the pass is invoked in this call, and
the rest of the queue is left intact for the next `run` call. -/
theorem raising_action_aborts_pass (beh : Nat → ActEff) (canc : Nat → Bool)
    (clock : Nat → Int) (f k : Nat) (e : ScheduledItem)
    (q : List ScheduledItem) (ns : Nat) (tr : List ScheduledItem)
    (hdue : ¬ e.duetime > clock k) (hc : canc e.seq = false)
    (hraise : beh e.aid = ActEff.raiseExn) :
    runEff beh canc clock (f + 1) k ⟨e :: q, ns, tr⟩ =
      (⟨q, ns, tr ++ [e]⟩, Outcome.raised) := by
  have hc' : ¬ canc e.seq = true := by simp [hc]
  simp [runEff, if_neg hdue, if_neg hc', hraise]

theorem raising_action_aborts_pass_witness :
    runEff (fun _ => ActEff.raiseExn) noCanc (constClock 0) 1 0
        ⟨[⟨0, 0, 0⟩, ⟨0, 1, 1⟩], 2, [⟨-1, 9, 9⟩]⟩ =
      (⟨[⟨0, 1, 1⟩], 2, [⟨-1, 9, 9⟩, ⟨0, 0, 0⟩]⟩, Outcome.raised) :=
  raising_action_aborts_pass (fun _ => ActEff.raiseExn) noCanc (constClock 0)
    0 0 ⟨0, 0, 0⟩ [⟨0, 1, 1⟩] 2 [⟨-1, 9, 9⟩] (by decide) (by decide) rfl

/-- Claim C7: `run` on an empty scheduler returns immediately with no side
effects, whatever the behaviours, cancellations and clock — the state is
returned unchanged with outcome `finished` (never an error), and since the
state is unchanged a repeated call is the same no-op. -/
theorem run_empty_queue_noop (beh : Nat → ActEff) (canc : Nat → Bool)
    (clock : Nat → Int) (f f2 k k2 ns : Nat) (tr : List ScheduledItem) :
    runEff beh canc clock (f + 1) k ⟨[], ns, tr⟩ =
      (⟨[], ns, tr⟩, Outcome.finished) ∧
    runEff beh canc clock (f2 + 1) k2
        (runEff beh canc clock (f + 1) k ⟨[], ns, tr⟩).1 =
      (⟨[], ns, tr⟩, Outcome.finished) := by
  constructor <;> simp [runEff]

/-- Claim C9: a due entry whose cancellation flag reads true is dequeued
(the pass continues with the rest of the queue and the same trace: it is
not invoked and not kept), and nothing carrying its sequence number is
ever invoked later in the pass. -/
theorem cancelled_due_entry_dequeued_not_invoked (beh : Nat → ActEff)
    (canc : Nat → Bool) (clock : Nat → Int) (f k : Nat) (e : ScheduledItem)
    (q : List ScheduledItem) (ns : Nat) (tr : List ScheduledItem)
    (hdue : ¬ e.duetime > clock k) (hc : canc e.seq = true) :
    runEff beh canc clock (f + 1) k ⟨e :: q, ns, tr⟩ =
      runEff beh canc clock f (k + 1) ⟨q, ns, tr⟩ ∧
    ((∀ x ∈ tr, canc x.seq = false) →
      ∀ x ∈ (runEff beh canc clock (f + 1) k ⟨e :: q, ns, tr⟩).1.trace,
        x.seq ≠ e.seq) := by
  refine ⟨by simp [runEff, if_neg hdue, hc], fun htr x hx hxe => ?_⟩
  have hfalse := runEff_trace_not_cancelled beh canc clock (f + 1) k
    ⟨e :: q, ns, tr⟩ htr x hx
  rw [hxe, hc] at hfalse
  simp at hfalse

theorem cancelled_due_entry_dequeued_not_invoked_witness :
    runEff pureBeh (fun m => decide (m = 0)) (constClock 0) 3 0
        ⟨[⟨0, 0, 5⟩, ⟨0, 1, 6⟩], 2, []⟩ =
      runEff pureBeh (fun m => decide (m = 0)) (constClock 0) 2 1
        ⟨[⟨0, 1, 6⟩], 2, []⟩ ∧
    (⟨0, 1, 6⟩ : ScheduledItem).seq ≠ (⟨0, 0, 5⟩ : ScheduledItem).seq :=
  ⟨(cancelled_due_entry_dequeued_not_invoked pureBeh (fun m => decide (m = 0))
      (constClock 0) 2 0 ⟨0, 0, 5⟩ [⟨0, 1, 6⟩] 2 [] (by decide) (by decide)).1,
   (cancelled_due_entry_dequeued_not_invoked pureBeh (fun m => decide (m = 0))
      (constClock 0) 2 0 ⟨0, 0, 5⟩ [⟨0, 1, 6⟩] 2 [] (by decide) (by decide)).2
     (by simp) ⟨0, 1, 6⟩ (by decide)⟩

/-- Claim C10: `run` reads the clock afresh on each loop iteration, so an
entry that was not yet due when the pass began (`clock 0`) is still
invoked within the same pass once the clock has reached its due time by
the iteration that examines it (`clock 1`). -/
theorem run_rereads_clock_each_iteration (canc : Nat → Bool)
    (clock : Nat → Int) (f : Nat) (e1 e2 : ScheduledItem) (ns : Nat)
    (h1 : ¬ e1.duetime > clock 0) (hc1 : canc e1.seq = false)
    (h2 : e2.duetime > clock 0) (h3 : ¬ e2.duetime > clock 1)
    (hc2 : canc e2.seq = false) :
    (runEff pureBeh canc clock (f + 1 + 1 + 1) 0 ⟨[e1, e2], ns, []⟩).1.trace =
      [e1, e2] ∧
    (runEff pureBeh canc clock (f + 1 + 1 + 1) 0 ⟨[e1, e2], ns, []⟩).2 =
      Outcome.finished := by
  have hc1' : ¬ canc e1.seq = true := by simp [hc1]
  have hc2' : ¬ canc e2.seq = true := by simp [hc2]
  have hstep : runEff pureBeh canc clock (f + 1 + 1 + 1) 0 ⟨[e1, e2], ns, []⟩ =
      (⟨[], ns, [e1, e2]⟩, Outcome.finished) := by
    simp [runEff, if_neg h1, if_neg hc1', if_neg h3, if_neg hc2', pureBeh]
  rw [hstep]
  exact ⟨rfl, rfl⟩

theorem run_rereads_clock_each_iteration_witness :
    ((runEff pureBeh noCanc (fun k => if k = 0 then 0 else 5) 3 0
        ⟨[⟨0, 0, 0⟩, ⟨5, 1, 1⟩], 2, []⟩).1.trace =
      [⟨0, 0, 0⟩, ⟨5, 1, 1⟩]) ∧
    (runEff pureBeh noCanc (fun k => if k = 0 then 0 else 5) 3 0
        ⟨[⟨0, 0, 0⟩, ⟨5, 1, 1⟩], 2, []⟩).2 = Outcome.finished :=
  run_rereads_clock_each_iteration noCanc (fun k => if k = 0 then 0 else 5) 0
    ⟨0, 0, 0⟩ ⟨5, 1, 1⟩ 2 (by decide) (by decide) (by decide) (by decide)
    (by decide)

/-- Claim C8, counterexample to "the current drain call terminates": with
a single immediately due action that calls `schedule(self)` whenever it is
invoked and a clock frozen at its due time, no amount of fuel makes `run`
return — the loop re-enqueues an immediately due entry on every iteration
and never exits. -/
theorem self_resched_run_never_returns :
    ¬ ∃ nf, (runEff selfBeh noCanc (constClock 0) nf 0
        ⟨[⟨0, 0, 0⟩], 1, []⟩).2 ≠ Outcome.fuelOut := by
  rintro ⟨nf, hnf⟩
  have h := runEff_selfBeh nf 0 0 []
  simp only [Nat.zero_add] at h
  exact hnf (by rw [h])

/-- Claim C8, amended: an action that calls `schedule(self)` when invoked
is re-enqueued (the queue again holds its entry, now immediately due, with
a fresh sequence number) and — because it is immediately due — it is
invoked again within the same `run` call rather than a future one; after
`n` loop iterations it has been invoked `n` times, and the call has not
returned.  No lock deadlock occurs (invocation happens outside the lock),
but a `run` call never terminates while the action keeps rescheduling
itself. -/
theorem self_resched_reinvoked_same_pass (n : Nat) :
    runEff selfBeh noCanc (constClock 0) n 0 ⟨[⟨0, 0, 0⟩], 1, []⟩ =
      (⟨[⟨0, n, 0⟩], n + 1, selfTrace 0 n⟩, Outcome.fuelOut) := by
  have h := runEff_selfBeh n 0 0 []
  simpa using h

end PyGame
